import Mathlib

/-
  Verification of the persistent red-black tree implementation
  (package tree, file tree/tree.go) against its specification.

  The Go code is embedded shallowly: `*node[T]` pointers become the
  inductive `RBNode` (with `.nil` for the nil pointer), the comparator
  `Compare[T] func(this, that T) int` becomes `T → T → Int`, and code
  paths that dereference a nil pointer (a Go runtime panic) are modelled
  by `Except Unit` with `.error ()` standing for the panic.
-/

namespace RBGo

/-- Go: `type color bool` with `red = true`, `black = false`. -/
abbrev color := Bool

def red : color := true

def black : color := false

/-- Go: `type node[T any] struct { item T; c color; left, right *node[T] }`.
`.nil` is the nil pointer. -/
inductive RBNode (T : Type) where
  | nil : RBNode T
  | node (item : T) (c : color) (left : RBNode T) (right : RBNode T) : RBNode T
deriving DecidableEq, Repr

variable {T : Type}

/-- Number of nodes in a (sub)tree; used as the termination measure of the
merge routines. -/
def size : RBNode T → Nat
  | .nil => 0
  | .node _ _ l r => size l + size r + 1

/-- Go: `func (n node[T]) copyWithEntry(item T) *node[T]`.
A nil receiver would panic in Go; every call site passes a non-nil node,
so the `.nil` case below is unreachable. -/
def copyWithEntry : RBNode T → T → RBNode T
  | .nil, _ => .nil
  | .node _ c l r, item => .node item c l r

/-- Go: `func (n node[T]) copyWithLeft(left *node[T]) *node[T]`.
The `.nil` receiver case is unreachable (Go would panic). -/
def copyWithLeft : RBNode T → RBNode T → RBNode T
  | .nil, _ => .nil
  | .node i c _ r, left => .node i c left r

/-- Go: `func (n node[T]) copyWithRight(right *node[T]) *node[T]`.
The `.nil` receiver case is unreachable (Go would panic). -/
def copyWithRight : RBNode T → RBNode T → RBNode T
  | .nil, _ => .nil
  | .node i c l _, right => .node i c l right

/-- Go: `func (n *node[T]) copyWithColor(c color) *node[T]`.
Called on a nil pointer it dereferences `n.c` and panics: `.error ()`. -/
def copyWithColor : RBNode T → color → Except Unit (RBNode T)
  | .nil, _ => .error ()
  | .node i c0 l r, c => if c0 = c then .ok (.node i c0 l r) else .ok (.node i c l r)

/-- Go: `func newNode[T any](item T) *node[T]` — a red node with no children. -/
def newNode (item : T) : RBNode T :=
  .node item red .nil .nil

/-- Go: `func (n *node[T]) isRed() bool`. Call sites check non-nil first;
the nil pointer is treated as black (`false`), matching those guards. -/
def isRed : RBNode T → Bool
  | .nil => false
  | .node _ c _ _ => c

/-- Go: `func (n *node[T]) balance() *node[T]` — Okasaki's four red-red
cases, tried in the source order (left-right, left-left, right-right,
right-left), on a black node; a red node or a nil node is returned as is.
In the left-left and right-right cases the recoloured grandchild
(`copyWithColor(black)` on a node the guard proved red) is written out as
a black copy. -/
def balance : RBNode T → RBNode T
  | .nil => .nil
  | .node i c l r =>
    if c = red then .node i c l r
    else
      match l, r with
      | .node lx true ll (.node lrx true lrl lrr), _ =>
        .node lrx red (.node lx black ll lrl) (.node i black lrr r)
      | .node lx true (.node llx true lll llr) lr, _ =>
        .node lx red (.node llx black lll llr) (.node i black lr r)
      | _, .node rx true rl (.node rrx true rrl rrr) =>
        .node rx red (.node i black l rl) (.node rrx black rrl rrr)
      | _, .node rx true (.node rlx true rll rlr) rr =>
        .node rlx red (.node i black l rll) (.node rx black rlr rr)
      | _, _ => .node i c l r

theorem size_balance (n : RBNode T) : size (balance n) = size n := by
  cases n with
  | nil => rfl
  | node i c l r =>
    simp only [balance]
    split
    · rfl
    · split <;> simp [size] <;> omega

theorem balance_ne_nil {n : RBNode T} (h : n ≠ .nil) : balance n ≠ .nil := by
  cases n with
  | nil => exact absurd rfl h
  | node i c l r =>
    simp only [balance]
    split
    · simp
    · split <;> simp

/-- Go: `func (n *node[T]) upsert(c Compare[T], inserting *node[T]) *node[T]`,
the merge engine behind `Upsert` and `Union`. The receiver is non-nil at
every call site (Go would panic on nil); the second equation below covers
that unreachable combination. Terminates by the lexicographic measure
(size of `inserting`, size of the receiver). -/
def upsert (c : T → T → Int) (n inserting : RBNode T) : RBNode T :=
  match n, inserting with
  | n, .nil => n
  | .nil, _ => .nil
  | .node ni nc nl nr, .node ii ic il ir =>
    let cmp := c ii ni
    if cmp = 0 then
      balance (upsert c (balance (upsert c (copyWithEntry (.node ni nc nl nr) ii) ir)) il)
    else if cmp = -1 then
      match nl with
      | .nil => balance (copyWithLeft (.node ni nc nl nr) (.node ii ic il ir))
      | .node a b d e =>
        upsert c
          (balance (copyWithLeft (.node ni nc nl nr)
            (upsert c (.node a b d e) (balance (copyWithRight (.node ii ic il ir) .nil)))))
          ir
    else
      match nr with
      | .nil => balance (copyWithRight (.node ni nc nl nr) (.node ii ic il ir))
      | .node a b d e =>
        upsert c
          (balance (copyWithRight (.node ni nc nl nr)
            (upsert c (.node a b d e) (balance (copyWithLeft (.node ii ic il ir) .nil)))))
          il
termination_by (size inserting, size n)
decreasing_by
  all_goals simp only [size_balance, copyWithEntry, copyWithLeft, copyWithRight,
    Prod.lex_def, size]
  all_goals omega

/-- Go: `func (n *node[T]) combinedChildren(c Compare[T]) *node[T]` — the
join used when a matched node is deleted. The receiver is non-nil at its
only call site (inside `subtract`); the `.nil` case is unreachable. -/
def combinedChildren (c : T → T → Int) : RBNode T → RBNode T
  | .nil => .nil
  | .node _ _ .nil r => r
  | .node _ _ (.node a b d e) r => upsert c (.node a b d e) r

/-- Go: `func (n *node[T]) subtract(c Compare[T], subtracting *node[T]) *node[T]`,
the merge engine behind `Delete` and `Subtract`. Go checks
`subtracting == nil` before touching the receiver, then evaluates
`c(subtracting.item, n.item)`: on a nil receiver that dereference panics,
modelled by `.error ()`. Terminates by the lexicographic measure
(size of `subtracting`, size of the receiver). -/
def subtract (c : T → T → Int) (n subtracting : RBNode T) : Except Unit (RBNode T) :=
  match n, subtracting with
  | n, .nil => .ok n
  | .nil, .node _ _ _ _ => .error ()
  | .node ni nc nl nr, .node si sc sl sr =>
    let cmp := c si ni
    if cmp = 0 then
      match subtract c (combinedChildren c (.node ni nc nl nr)) sr with
      | .error e => .error e
      | .ok r1 => subtract c r1 sl
    else if cmp = -1 then
      match nl with
      | .nil => .ok (.node ni nc nl nr)
      | .node a b d e =>
        match subtract c (.node a b d e) (balance (copyWithRight (.node si sc sl sr) .nil)) with
        | .error er => .error er
        | .ok l1 =>
          subtract c (balance (copyWithLeft (.node ni nc nl nr) l1)) sr
    else
      match nr with
      | .nil => .ok (.node ni nc nl nr)
      | .node a b d e =>
        match subtract c (.node a b d e) (balance (copyWithLeft (.node si sc sl sr) .nil)) with
        | .error er => .error er
        | .ok r1 =>
          subtract c (balance (copyWithRight (.node ni nc nl nr) r1)) sl
termination_by (size subtracting, size n)
decreasing_by
  all_goals simp only [size_balance, copyWithLeft, copyWithRight, Prod.lex_def, size]
  all_goals omega

/-- Go: `func (n *node[T]) intersection(c Compare[T], intersecting *node[T]) *node[T]`.
Both nil checks are in the source, so no panic is possible inside this
routine. Terminates by the lexicographic measure
(size of `intersecting`, size of the receiver). -/
def intersection (c : T → T → Int) (n intersecting : RBNode T) : RBNode T :=
  match n, intersecting with
  | .nil, _ => .nil
  | _, .nil => .nil
  | .node ni nc nl nr, .node ii ic il ir =>
    let cmp := c ii ni
    if cmp = 0 then
      let rightIntersection := balance (intersection c nr ir)
      let leftIntersection := balance (intersection c nl il)
      balance (copyWithLeft (balance (copyWithRight (.node ni nc nl nr) rightIntersection))
        leftIntersection)
    else if cmp = -1 then
      match intersection c nl (balance (copyWithRight (.node ii ic il ir) .nil)) with
      | .nil => intersection c (.node ni nc nl nr) ir
      | .node a b d e =>
        balance (copyWithRight (.node a b d e) (intersection c (.node ni nc nl nr) ir))
    else
      match intersection c nr (balance (copyWithLeft (.node ii ic il ir) .nil)) with
      | .nil => intersection c (.node ni nc nl nr) il
      | .node a b d e =>
        balance (copyWithLeft (.node a b d e) (intersection c (.node ni nc nl nr) il))
termination_by (size intersecting, size n)
decreasing_by
  all_goals simp only [size_balance, copyWithLeft, copyWithRight, Prod.lex_def, size]
  all_goals omega

/-- Go: `func NewRedBlack[T any](...)` starts from a nil root; the public
operations below act on the root node, with the comparator passed as a
parameter (Go stores it unchanged in the tree struct). -/
def NewRedBlack : RBNode T := .nil

/-- Go: `func (r *RedBlackTree[T]) Upsert(item T) *RedBlackTree[T]`. -/
def Upsert (c : T → T → Int) (root : RBNode T) (item : T) : Except Unit (RBNode T) :=
  match root with
  | .nil => .ok (.node item black .nil .nil)
  | .node a b d e => copyWithColor (upsert c (.node a b d e) (newNode item)) black

/-- Go: `func (r *RedBlackTree[T]) Delete(item T) *RedBlackTree[T]`.
On an empty tree Go returns the same tree; otherwise the subtract result
(possibly a nil pointer) is recoloured black, which panics when it is nil. -/
def Delete (c : T → T → Int) (root : RBNode T) (item : T) : Except Unit (RBNode T) :=
  match root with
  | .nil => .ok .nil
  | .node a b d e =>
    match subtract c (.node a b d e) (newNode item) with
    | .error er => .error er
    | .ok s => copyWithColor s black

/-- Go: `func (r *RedBlackTree[T]) Subtract(other *RedBlackTree[T]) *RedBlackTree[T]`. -/
def Subtract (c : T → T → Int) (root other : RBNode T) : Except Unit (RBNode T) :=
  match root with
  | .nil => .ok .nil
  | .node a b d e =>
    match subtract c (.node a b d e) other with
    | .error er => .error er
    | .ok s => copyWithColor s black

/-- Go: `func (r *RedBlackTree[T]) Union(other *RedBlackTree[T]) *RedBlackTree[T]`. -/
def Union (c : T → T → Int) (root other : RBNode T) : Except Unit (RBNode T) :=
  match root with
  | .nil => .ok other
  | .node a b d e => copyWithColor (upsert c (.node a b d e) other) black

/-- Go: `func (r *RedBlackTree[T]) Intersection(other *RedBlackTree[T]) *RedBlackTree[T]`.
On an empty receiver Go returns a nil `*RedBlackTree`, modelled as the
empty root; otherwise the intersection result (possibly a nil pointer) is
recoloured black, which panics when it is nil. -/
def Intersection (c : T → T → Int) (root other : RBNode T) : Except Unit (RBNode T) :=
  match root with
  | .nil => .ok .nil
  | .node a b d e => copyWithColor (intersection c (.node a b d e) other) black

/-- Go: `type nodeIterator[T any] struct { unprocStack []*node[T]; current *node[T] }`.
The head of `unprocStack` is the top of the stack (the last slice element). -/
structure nodeIterator (T : Type) where
  unprocStack : List (RBNode T)
  current : RBNode T
deriving DecidableEq, Repr

/-- The descent loop of Go's `Iterator()`: while the current node has a
left child, push the current node and move left. -/
def descendLeft : List (RBNode T) → RBNode T → nodeIterator T
  | stack, .node i c (.node li lc ll lr) r =>
    descendLeft ((.node i c (.node li lc ll lr) r) :: stack) (.node li lc ll lr)
  | stack, n => ⟨stack, n⟩

/-- Go: `func (r *RedBlackTree[T]) Iterator() Iterator[T]`. -/
def Iterator (root : RBNode T) : nodeIterator T :=
  match root with
  | .nil => ⟨[], .nil⟩
  | n => descendLeft [] n

/-- Go: `func (n *nodeIterator[T]) Elem() T` — on a nil current node it
returns the zero value of `T`, modelled by `default`. -/
def Elem [Inhabited T] (it : nodeIterator T) : T :=
  match it.current with
  | .nil => default
  | .node i _ _ _ => i

/-- Go: `func (n *nodeIterator[T]) HasElem() bool`. -/
def HasElem (it : nodeIterator T) : Bool :=
  match it.current with
  | .nil => false
  | .node _ _ _ _ => true

/-- The cursor loop of Go's `Next()`: push every node on the left spine
of the given subtree. -/
def pushLeftSpine : List (RBNode T) → RBNode T → List (RBNode T)
  | stack, .nil => stack
  | stack, .node i c l r => pushLeftSpine ((.node i c l r) :: stack) l

/-- Go: `func (n *nodeIterator[T]) Next()` — a no-op on a nil current
node; otherwise pushes the left spine of the right child and pops the
top of the stack (or ends the iteration when the stack is empty). -/
def Next (it : nodeIterator T) : nodeIterator T :=
  match it.current with
  | .nil => it
  | .node _ _ _ r =>
    match pushLeftSpine it.unprocStack r with
    | [] => ⟨[], .nil⟩
    | top :: rest => ⟨rest, top⟩

/-- In-order traversal of a tree, the reference observation for the
iterator and for all content-level claims. -/
def inorder : RBNode T → List T
  | .nil => []
  | .node i _ l r => inorder l ++ i :: inorder r

/-- Number of elements the iterator still has to produce from a node:
the node itself plus its right subtree (its left subtree is already
consumed when the node sits in an iterator state). -/
def weight : RBNode T → Nat
  | .nil => 0
  | .node _ _ _ r => size r + 1

/-- Total remaining elements on an iterator stack. -/
def stackWeight : List (RBNode T) → Nat
  | [] => 0
  | n :: rest => weight n + stackWeight rest

/-- Exact number of elements an iterator state will still produce. -/
def iterFuel (it : nodeIterator T) : Nat :=
  weight it.current + stackWeight it.unprocStack

/-- Runs the iterator protocol (`Elem` while `HasElem`, advancing with
`Next`) for at most `fuel` steps, collecting the elements. -/
def iterGo : Nat → nodeIterator T → List T
  | 0, _ => []
  | fuel + 1, it =>
    match it.current with
    | .nil => []
    | .node i _ _ _ => i :: iterGo fuel (Next it)

/-- The full element sequence produced by an iterator state
(`iterFuel` steps always suffice, as proved below). -/
def iterToList (it : nodeIterator T) : List T :=
  iterGo (iterFuel it) it

/-- Modelled from the spec: `ValidateInvariants` is called by the example
program but its source file is not part of the tree package sources here;
invariant 1 of §3 / §4.6(b): every red node's children are black. -/
def noRedRed : RBNode T → Bool
  | .nil => true
  | .node _ c l r =>
    (if c = red then !isRed l && !isRed r else true) && noRedRed l && noRedRed r

/-- Modelled from the spec: invariant 2 of §3 / §4.6(c): every path from
the root to an empty child passes through the same number of black nodes,
an empty child contributing one black unit; `none` on a mismatch. -/
def blackHeight : RBNode T → Option Nat
  | .nil => some 1
  | .node _ c l r =>
    match blackHeight l, blackHeight r with
    | some a, some b => if a = b then some (a + (if c = black then 1 else 0)) else none
    | _, _ => none

/-- Strictly increasing under the comparator (negative means less). -/
def strictlyIncreasing (c : T → T → Int) : List T → Bool
  | [] => true
  | [_] => true
  | a :: b :: rest => decide (c a b < 0) && strictlyIncreasing c (b :: rest)

/-- Modelled from the spec: the conjunction `ValidateInvariants` checks —
invariant 1 (no red node with a red child), invariant 2 (uniform
black-height) and invariant 3 (strict in-order ordering, no duplicates). -/
def validRB (c : T → T → Int) (root : RBNode T) : Bool :=
  noRedRed root && (blackHeight root).isSome && strictlyIncreasing c (inorder root)

/-- A single public mutating operation, for stating claims about
arbitrary operation sequences. -/
inductive Op (T : Type) where
  | up (x : T)
  | del (x : T)
deriving DecidableEq, Repr

/-- Runs a sequence of `Upsert`/`Delete` operations from a given root,
propagating a panic. -/
def runOps (c : T → T → Int) : RBNode T → List (Op T) → Except Unit (RBNode T)
  | r, [] => .ok r
  | r, .up x :: rest =>
    match Upsert c r x with
    | .error er => .error er
    | .ok r' => runOps c r' rest
  | r, .del x :: rest =>
    match Delete c r x with
    | .error er => .error er
    | .ok r' => runOps c r' rest

/-- Builds a tree by upserting the given items in order, starting from
the empty tree. -/
def buildList (c : T → T → Int) (xs : List T) : Except Unit (RBNode T) :=
  runOps c .nil (xs.map .up)

/-- The integer comparator of the example program (`func compare(a, b int) int`). -/
def compare (a b : Int) : Int :=
  if a < b then -1 else if a = b then 0 else 1

/-- A comparator that orders `Int` in the usual way but reports "less"
with the value `-2` instead of `-1` (spec §3 allows any negative value). -/
def compareNegTwo (a b : Int) : Int :=
  if a < b then -2 else if a = b then 0 else 1

/-- A comparator that orders `Int` in the usual way but reports "greater"
with the value `7`: the code only tests `cmp == 0` and `cmp == -1`, so it
behaves exactly like the `-1/0/+1` comparator. -/
def compareGreaterSeven (a b : Int) : Int :=
  if a < b then -1 else if a = b then 0 else 7

/-- C1: starting from the empty tree, the operation sequence
Upsert 1, Upsert 2, Upsert 3, Delete 1 produces the tree
`2(black)[·, 3(black)]`, whose left path passes one black node and whose
right path passes two: the black-height invariant is violated (and the
full validator conjunction fails), refuting the claim that the red-black
invariants survive every Upsert/Delete sequence. -/
theorem upsertDeleteSequenceViolatesBlackHeight :
    runOps RBGo.compare .nil [.up 1, .up 2, .up 3, .del 1]
        = .ok (.node 2 black .nil (.node 3 black .nil .nil))
      ∧ blackHeight (.node (2 : Int) black .nil (.node 3 black .nil .nil)) = none
      ∧ validRB RBGo.compare (.node (2 : Int) black .nil (.node 3 black .nil .nil)) = false := by
  refine ⟨?_, by decide, by decide⟩
  simp [runOps, Upsert, Delete, upsert, subtract, balance, copyWithEntry, copyWithLeft,
    copyWithRight, copyWithColor, newNode, combinedChildren, RBGo.compare, red, black]

/-- C2: with A built by Upsert 0 and B built by Upsert 1 then Upsert 0,
`A.Union(B)` grafts B's whole root (left child included) as A's right
child, so iterating the union yields `[0, 0, 1]`: the key 0 appears
twice, the sequence is not strictly increasing, and it is not the
deduplicated sorted union `[0, 1]`. -/
theorem unionProducesDuplicateKeys :
    buildList RBGo.compare [0] = .ok (.node 0 black .nil .nil)
      ∧ buildList RBGo.compare [1, 0]
          = .ok (.node 1 black (.node 0 red .nil .nil) .nil)
      ∧ RBGo.Union RBGo.compare (.node 0 black .nil .nil)
            (.node 1 black (.node 0 red .nil .nil) .nil)
          = .ok (.node 0 black .nil (.node 1 black (.node 0 red .nil .nil) .nil))
      ∧ iterToList (RBGo.Iterator
            (.node (0 : Int) black .nil (.node 1 black (.node 0 red .nil .nil) .nil)))
          = [0, 0, 1]
      ∧ ([0, 0, 1] : List Int) ≠ [0, 1] := by
  refine ⟨?_, ?_, ?_, by decide, by decide⟩ <;>
  simp [buildList, runOps, Upsert, RBGo.Union, upsert, balance, copyWithEntry,
    copyWithLeft, copyWithRight, copyWithColor, newNode, RBGo.compare, red, black]

/-- C3: with A built by Upsert 0 and B built by Upsert 1 then Upsert 0,
`A.Subtract(B)` compares A's root 0 with B's root 1, finds the right
child of A empty, and returns A without ever visiting B's left child:
the key 0, present in B, survives, so iteration yields `[0]` instead of
the claimed `[]`. -/
theorem subtractLeavesSubtractedKey :
    buildList RBGo.compare [0] = .ok (.node 0 black .nil .nil)
      ∧ buildList RBGo.compare [1, 0]
          = .ok (.node 1 black (.node 0 red .nil .nil) .nil)
      ∧ RBGo.Subtract RBGo.compare (.node 0 black .nil .nil)
            (.node 1 black (.node 0 red .nil .nil) .nil)
          = .ok (.node 0 black .nil .nil)
      ∧ iterToList (RBGo.Iterator (.node (0 : Int) black .nil .nil)) = [0]
      ∧ ([0] : List Int) ≠ [] := by
  refine ⟨?_, ?_, ?_, by decide, by decide⟩ <;>
  simp [buildList, runOps, Upsert, RBGo.Subtract, upsert, subtract, balance,
    copyWithEntry, copyWithLeft, copyWithRight, copyWithColor, newNode,
    RBGo.compare, red, black]

/-- C4: for A = {1} and B = {2}, which share no items, the recursive
intersection returns the nil pointer and `Intersection` then calls
`copyWithColor` on it, dereferencing nil: the operation panics instead of
returning an empty tree. -/
theorem intersectionDisjointPanics :
    buildList RBGo.compare [1] = .ok (.node 1 black .nil .nil)
      ∧ buildList RBGo.compare [2] = .ok (.node 2 black .nil .nil)
      ∧ RBGo.Intersection RBGo.compare (.node 1 black .nil .nil)
            (.node 2 black .nil .nil)
          = .error () := by
  refine ⟨?_, ?_, ?_⟩ <;>
  simp [buildList, runOps, Upsert, RBGo.Intersection, upsert, intersection, balance,
    copyWithEntry, copyWithLeft, copyWithRight, copyWithColor, newNode,
    RBGo.compare, red, black]

/-- C5: deleting the only element of the one-node tree {1} makes
`subtract` return the nil pointer, and `Delete` then calls
`copyWithColor(black)` on it, dereferencing nil: the operation panics
rather than returning the empty tree. -/
theorem deleteOnlyElementPanics :
    buildList RBGo.compare [1] = .ok (.node 1 black .nil .nil)
      ∧ RBGo.Delete RBGo.compare (.node 1 black .nil .nil) 1 = .error () := by
  refine ⟨?_, ?_⟩ <;>
  simp [buildList, runOps, Upsert, RBGo.Delete, upsert, subtract, balance,
    copyWithEntry, copyWithLeft, copyWithRight, copyWithColor, newNode,
    combinedChildren, RBGo.compare, red, black]

/-- C6 counterexample: the union tree of C2 is a reachable tree whose
fresh iterator yields `[0, 0, 1]` — not strictly increasing under the
comparator and not the set of distinct keys — refuting the claim for
"every tree". -/
theorem iteratorSequenceNotStrictlyIncreasing :
    RBGo.Union RBGo.compare (.node 0 black .nil .nil)
        (.node 1 black (.node 0 red .nil .nil) .nil)
      = .ok (.node 0 black .nil (.node 1 black (.node 0 red .nil .nil) .nil))
      ∧ iterToList (RBGo.Iterator
            (.node (0 : Int) black .nil (.node 1 black (.node 0 red .nil .nil) .nil)))
          = [0, 0, 1]
      ∧ strictlyIncreasing RBGo.compare [0, 0, 1] = false := by
  refine ⟨?_, by decide, by decide⟩
  simp [RBGo.Union, upsert, balance, copyWithEntry, copyWithLeft, copyWithRight,
    copyWithColor, newNode, RBGo.compare, red, black]

/-- C7 counterexample: upserting 2 then 1 with a comparator that returns
`-2` for "less" produces the tree `2[·, 1]` with in-order `[2, 1]`,
while the equivalent `-1/0/+1` comparator produces in-order `[1, 2]`:
the code treats the negative value `-2` as "greater", so contents differ. -/
theorem negativeTwoComparatorMisorders :
    runOps compareNegTwo .nil [.up 2, .up 1]
        = .ok (.node 2 black .nil (.node 1 red .nil .nil))
      ∧ runOps RBGo.compare .nil [.up 2, .up 1]
          = .ok (.node 2 black (.node 1 red .nil .nil) .nil)
      ∧ inorder (.node (2 : Int) black .nil (.node 1 red .nil .nil)) = [2, 1]
      ∧ inorder (.node (2 : Int) black (.node 1 red .nil .nil) .nil) = [1, 2]
      ∧ ([2, 1] : List Int) ≠ [1, 2] := by
  refine ⟨?_, ?_, by decide, by decide, by decide⟩ <;>
  simp [runOps, Upsert, upsert, balance, copyWithEntry, copyWithLeft, copyWithRight,
    copyWithColor, newNode, RBGo.compare, compareNegTwo, red, black]

/-- C8 counterexample: for A = {2} and B = {2, 3} the subtract merge
itself dereferences a nil receiver (after deleting 2, the joined empty
subtree is asked to subtract B's right child): `A.Subtract(B)` terminates
in a panic instead of returning a value. -/
theorem subtractMergePanics :
    buildList RBGo.compare [2] = .ok (.node 2 black .nil .nil)
      ∧ buildList RBGo.compare [2, 3]
          = .ok (.node 2 black .nil (.node 3 red .nil .nil))
      ∧ RBGo.Subtract RBGo.compare (.node 2 black .nil .nil)
            (.node 2 black .nil (.node 3 red .nil .nil))
          = .error () := by
  refine ⟨?_, ?_, ?_⟩ <;>
  simp [buildList, runOps, Upsert, RBGo.Subtract, upsert, subtract, balance,
    copyWithEntry, copyWithLeft, copyWithRight, copyWithColor, newNode,
    combinedChildren, RBGo.compare, red, black]

theorem upsert_ne_nil (c : T → T → Int) :
    ∀ (n inserting : RBNode T), n ≠ .nil → upsert c n inserting ≠ .nil := by
  intro n ins
  induction n, ins using upsert.induct c with
  | case1 n => intro h; simpa [upsert] using h
  | case2 ins hne => intro h; exact absurd rfl h
  | case3 ni nc nl nr ii ic il ir cmp h0 ihA ihB ihC =>
    intro _
    rw [upsert.eq_def]
    simp only [show c ii ni = 0 from h0, reduceIte]
    exact balance_ne_nil (ihC (balance_ne_nil (ihA (by simp [copyWithEntry]))))
  | case4 ni nc nr ii ic il ir cmp hne0 hm1 =>
    intro _
    rw [upsert.eq_def]
    simp only [show c ii ni = -1 from hm1, Int.reduceNeg, Int.reduceEq, reduceIte]
    apply balance_ne_nil
    simp [copyWithLeft]
  | case5 ni nc nr ii ic il ir cmp hne0 hm1 a a1 a2 a3 ihA ihB ihC =>
    intro _
    rw [upsert.eq_def]
    simp only [show c ii ni = -1 from hm1, Int.reduceNeg, Int.reduceEq, reduceIte]
    apply ihC
    apply balance_ne_nil
    simp [copyWithLeft]
  | case6 ni nc nl ii ic il ir cmp hne0 hnem1 =>
    intro _
    rw [upsert.eq_def]
    simp only [show ¬c ii ni = 0 from hne0, show ¬c ii ni = -1 from hnem1, reduceIte]
    apply balance_ne_nil
    simp [copyWithRight]
  | case7 ni nc nl ii ic il ir cmp hne0 hnem1 a a1 a2 a3 ihA ihB ihC =>
    intro _
    rw [upsert.eq_def]
    simp only [show ¬c ii ni = 0 from hne0, show ¬c ii ni = -1 from hnem1, reduceIte]
    apply ihC
    apply balance_ne_nil
    simp [copyWithRight]

theorem copyWithColor_ok {n : RBNode T} (h : n ≠ .nil) (col : color) :
    ∃ r, copyWithColor n col = .ok r := by
  cases n with
  | nil => exact absurd rfl h
  | node i c0 l r =>
    by_cases hc : c0 = col
    · exact ⟨.node i c0 l r, by simp [copyWithColor, hc]⟩
    · exact ⟨.node i col l r, by simp [copyWithColor, hc]⟩

/-- C8 (amended): the merge recursions all terminate (they are total
functions of this development, certified by the lexicographic measure on
the definitions of `upsert`, `subtract` and `intersection`), and the
public operations built on the upsert merge — `Upsert` and `Union` —
always return a value (never panic). `Delete`, `Subtract` and
`Intersection` terminate as well but may end in a nil-dereference panic
instead of a value, as the counterexample shows. -/
theorem upsertAndUnionAlwaysReturn (c : T → T → Int) (root other : RBNode T) (x : T) :
    (∃ r, Upsert c root x = .ok r) ∧ (∃ u, RBGo.Union c root other = .ok u) := by
  constructor
  · cases root with
    | nil => exact ⟨.node x black .nil .nil, rfl⟩
    | node a b d e =>
      have hne := upsert_ne_nil c (.node a b d e) (newNode x) (by simp)
      obtain ⟨r, hr⟩ := copyWithColor_ok hne black
      exact ⟨r, by simpa [Upsert] using hr⟩
  · cases root with
    | nil => exact ⟨other, rfl⟩
    | node a b d e =>
      have hne := upsert_ne_nil c (.node a b d e) other (by simp)
      obtain ⟨r, hr⟩ := copyWithColor_ok hne black
      exact ⟨r, by simpa [RBGo.Union] using hr⟩

theorem upsert_congr (c c' : T → T → Int)
    (h : ∀ a b, (c a b = 0 ↔ c' a b = 0) ∧ (c a b = -1 ↔ c' a b = -1)) :
    ∀ n ins, upsert c n ins = upsert c' n ins := by
  intro n ins
  induction n, ins using upsert.induct c with
  | case1 n => simp [upsert]
  | case2 ins hne =>
    cases ins with
    | nil => simp [upsert]
    | node ii ic il ir =>
      rw [upsert.eq_def]
      conv_rhs => rw [upsert.eq_def]
  | case3 ni nc nl nr ii ic il ir cmp h0 ihA ihB ihC =>
    have h0' : c' ii ni = 0 := (h ii ni).1.mp h0
    rw [upsert.eq_def]
    conv_rhs => rw [upsert.eq_def]
    simp only [show c ii ni = 0 from h0, h0', reduceIte]
    rw [ihC, ihA]
  | case4 ni nc nr ii ic il ir cmp hne0 hm1 =>
    have hne0' : ¬c' ii ni = 0 := fun hx => hne0 ((h ii ni).1.mpr hx)
    have hm1' : c' ii ni = -1 := (h ii ni).2.mp hm1
    rw [upsert.eq_def]
    conv_rhs => rw [upsert.eq_def]
    simp only [show c ii ni = -1 from hm1, hm1', Int.reduceNeg, Int.reduceEq, reduceIte]
  | case5 ni nc nr ii ic il ir cmp hne0 hm1 a a1 a2 a3 ihA ihB ihC =>
    have hm1' : c' ii ni = -1 := (h ii ni).2.mp hm1
    rw [upsert.eq_def]
    conv_rhs => rw [upsert.eq_def]
    simp only [show c ii ni = -1 from hm1, hm1', Int.reduceNeg, Int.reduceEq, reduceIte]
    rw [ihC, ihA]
  | case6 ni nc nl ii ic il ir cmp hne0 hnem1 =>
    have hne0' : ¬c' ii ni = 0 := fun hx => hne0 ((h ii ni).1.mpr hx)
    have hnem1' : ¬c' ii ni = -1 := fun hx => hnem1 ((h ii ni).2.mpr hx)
    rw [upsert.eq_def]
    conv_rhs => rw [upsert.eq_def]
    simp only [show ¬c ii ni = 0 from hne0, hne0', show ¬c ii ni = -1 from hnem1, hnem1',
      reduceIte]
  | case7 ni nc nl ii ic il ir cmp hne0 hnem1 a a1 a2 a3 ihA ihB ihC =>
    have hne0' : ¬c' ii ni = 0 := fun hx => hne0 ((h ii ni).1.mpr hx)
    have hnem1' : ¬c' ii ni = -1 := fun hx => hnem1 ((h ii ni).2.mpr hx)
    rw [upsert.eq_def]
    conv_rhs => rw [upsert.eq_def]
    simp only [show ¬c ii ni = 0 from hne0, hne0', show ¬c ii ni = -1 from hnem1, hnem1',
      reduceIte]
    rw [ihC, ihA]

theorem combinedChildren_congr (c c' : T → T → Int)
    (h : ∀ a b, (c a b = 0 ↔ c' a b = 0) ∧ (c a b = -1 ↔ c' a b = -1)) (n : RBNode T) :
    combinedChildren c n = combinedChildren c' n := by
  cases n with
  | nil => rfl
  | node i c0 l r =>
    cases l with
    | nil => rfl
    | node a b d e => simpa [combinedChildren] using upsert_congr c c' h (.node a b d e) r

theorem subtract_congr (c c' : T → T → Int)
    (h : ∀ a b, (c a b = 0 ↔ c' a b = 0) ∧ (c a b = -1 ↔ c' a b = -1)) :
    ∀ n s, subtract c n s = subtract c' n s := by
  intro n s
  induction n, s using subtract.induct c with
  | case1 n => simp [subtract]
  | case2 si sc sl sr => simp [subtract]
  | case3 ni nc nl nr si sc sl sr cmp h0 e heq ih =>
    have h0' : c' si ni = 0 := (h si ni).1.mp h0
    have hR : subtract c' (combinedChildren c' (.node ni nc nl nr)) sr = .error e := by
      rw [← combinedChildren_congr c c' h, ← ih, heq]
    cases nl <;> cases nr <;>
      simp only [subtract, show c si ni = 0 from h0, h0', reduceIte, heq, hR]
  | case4 ni nc nl nr si sc sl sr cmp h0 r1 heq ih ih2 =>
    have h0' : c' si ni = 0 := (h si ni).1.mp h0
    have hR : subtract c' (combinedChildren c' (.node ni nc nl nr)) sr = .ok r1 := by
      rw [← combinedChildren_congr c c' h, ← ih, heq]
    cases nl <;> cases nr <;>
      simp only [subtract, show c si ni = 0 from h0, h0', reduceIte, heq, hR, ih2]
  | case5 ni nc nr si sc sl sr cmp hne0 hm1 =>
    have hne0' : ¬c' si ni = 0 := fun hx => hne0 ((h si ni).1.mpr hx)
    have hm1' : c' si ni = -1 := (h si ni).2.mp hm1
    cases nr <;>
      simp only [subtract, show ¬c si ni = 0 from hne0, hne0', show c si ni = -1 from hm1,
        hm1', Int.reduceNeg, Int.reduceEq, reduceIte]
  | case6 ni nc nr si sc sl sr cmp hne0 hm1 a a1 a2 a3 e heq ih =>
    have hne0' : ¬c' si ni = 0 := fun hx => hne0 ((h si ni).1.mpr hx)
    have hm1' : c' si ni = -1 := (h si ni).2.mp hm1
    have hR : subtract c' (.node a a1 a2 a3)
        (balance (copyWithRight (.node si sc sl sr) .nil)) = .error e := by
      rw [← ih, heq]
    cases nr <;>
      simp only [subtract, show ¬c si ni = 0 from hne0, hne0', show c si ni = -1 from hm1,
        hm1', Int.reduceNeg, Int.reduceEq, reduceIte, heq, hR]
  | case7 ni nc nr si sc sl sr cmp hne0 hm1 a a1 a2 a3 r1 heq ih ih2 =>
    have hne0' : ¬c' si ni = 0 := fun hx => hne0 ((h si ni).1.mpr hx)
    have hm1' : c' si ni = -1 := (h si ni).2.mp hm1
    have hR : subtract c' (.node a a1 a2 a3)
        (balance (copyWithRight (.node si sc sl sr) .nil)) = .ok r1 := by
      rw [← ih, heq]
    cases nr <;>
      simp only [subtract, show ¬c si ni = 0 from hne0, hne0', show c si ni = -1 from hm1,
        hm1', Int.reduceNeg, Int.reduceEq, reduceIte, heq, hR, ih2]
  | case8 ni nc nl si sc sl sr cmp hne0 hnem1 =>
    have hne0' : ¬c' si ni = 0 := fun hx => hne0 ((h si ni).1.mpr hx)
    have hnem1' : ¬c' si ni = -1 := fun hx => hnem1 ((h si ni).2.mpr hx)
    cases nl <;>
      simp only [subtract, show ¬c si ni = 0 from hne0, hne0',
        show ¬c si ni = -1 from hnem1, hnem1', reduceIte]
  | case9 ni nc nl si sc sl sr cmp hne0 hnem1 a a1 a2 a3 e heq ih =>
    have hne0' : ¬c' si ni = 0 := fun hx => hne0 ((h si ni).1.mpr hx)
    have hnem1' : ¬c' si ni = -1 := fun hx => hnem1 ((h si ni).2.mpr hx)
    have hR : subtract c' (.node a a1 a2 a3)
        (balance (copyWithLeft (.node si sc sl sr) .nil)) = .error e := by
      rw [← ih, heq]
    cases nl <;>
      simp only [subtract, show ¬c si ni = 0 from hne0, hne0',
        show ¬c si ni = -1 from hnem1, hnem1', reduceIte, heq, hR]
  | case10 ni nc nl si sc sl sr cmp hne0 hnem1 a a1 a2 a3 r1 heq ih ih2 =>
    have hne0' : ¬c' si ni = 0 := fun hx => hne0 ((h si ni).1.mpr hx)
    have hnem1' : ¬c' si ni = -1 := fun hx => hnem1 ((h si ni).2.mpr hx)
    have hR : subtract c' (.node a a1 a2 a3)
        (balance (copyWithLeft (.node si sc sl sr) .nil)) = .ok r1 := by
      rw [← ih, heq]
    cases nl <;>
      simp only [subtract, show ¬c si ni = 0 from hne0, hne0',
        show ¬c si ni = -1 from hnem1, hnem1', reduceIte, heq, hR, ih2]

theorem intersection_congr (c c' : T → T → Int)
    (h : ∀ a b, (c a b = 0 ↔ c' a b = 0) ∧ (c a b = -1 ↔ c' a b = -1)) :
    ∀ n ins, intersection c n ins = intersection c' n ins := by
  intro n ins
  induction n, ins using intersection.induct c with
  | case1 ins => simp [intersection]
  | case2 n hne => cases n <;> simp [intersection]
  | case3 ni nc nl nr ii ic il ir cmp h0 ihR ihL =>
    have h0' : c' ii ni = 0 := (h ii ni).1.mp h0
    rw [intersection.eq_3, intersection.eq_3]
    simp only [show c ii ni = 0 from h0, h0', reduceIte, ihR, ihL]
  | case4 ni nc nl nr ii ic il ir cmp hne0 hm1 heq ihT ihC =>
    have hm1' : c' ii ni = -1 := (h ii ni).2.mp hm1
    have hR : intersection c' nl (balance (copyWithRight (.node ii ic il ir) .nil))
        = .nil := by rw [← ihT, heq]
    rw [intersection.eq_3, intersection.eq_3]
    simp only [show c ii ni = -1 from hm1, hm1', Int.reduceNeg, Int.reduceEq, reduceIte,
      heq, hR, ihC]
  | case5 ni nc nl nr ii ic il ir cmp hne0 hm1 a a1 a2 a3 heq ihT ihC =>
    have hm1' : c' ii ni = -1 := (h ii ni).2.mp hm1
    have hR : intersection c' nl (balance (copyWithRight (.node ii ic il ir) .nil))
        = .node a a1 a2 a3 := by rw [← ihT, heq]
    rw [intersection.eq_3, intersection.eq_3]
    simp only [show c ii ni = -1 from hm1, hm1', Int.reduceNeg, Int.reduceEq, reduceIte,
      heq, hR, ihC]
  | case6 ni nc nl nr ii ic il ir cmp hne0 hnem1 heq ihT ihC =>
    have hne0' : ¬c' ii ni = 0 := fun hx => hne0 ((h ii ni).1.mpr hx)
    have hnem1' : ¬c' ii ni = -1 := fun hx => hnem1 ((h ii ni).2.mpr hx)
    have hR : intersection c' nr (balance (copyWithLeft (.node ii ic il ir) .nil))
        = .nil := by rw [← ihT, heq]
    rw [intersection.eq_3, intersection.eq_3]
    simp only [show ¬c ii ni = 0 from hne0, hne0', show ¬c ii ni = -1 from hnem1, hnem1',
      reduceIte, heq, hR, ihC]
  | case7 ni nc nl nr ii ic il ir cmp hne0 hnem1 a a1 a2 a3 heq ihT ihC =>
    have hne0' : ¬c' ii ni = 0 := fun hx => hne0 ((h ii ni).1.mpr hx)
    have hnem1' : ¬c' ii ni = -1 := fun hx => hnem1 ((h ii ni).2.mpr hx)
    have hR : intersection c' nr (balance (copyWithLeft (.node ii ic il ir) .nil))
        = .node a a1 a2 a3 := by rw [← ihT, heq]
    rw [intersection.eq_3, intersection.eq_3]
    simp only [show ¬c ii ni = 0 from hne0, hne0', show ¬c ii ni = -1 from hnem1, hnem1',
      reduceIte, heq, hR, ihC]

/-- C7 (amended): the code distinguishes only the comparator results `0`
(equal) and `-1` (less); every other value — in particular any positive
value — is treated as "greater". Hence two comparators that agree on
which pairs map to `0` and which map to `-1` make every public operation
produce identical results; a comparator returning a negative value other
than `-1` for "less" is instead treated as "greater" (see the
counterexample). -/
theorem comparatorClassificationCongruence (c c' : T → T → Int)
    (h : ∀ a b, (c a b = 0 ↔ c' a b = 0) ∧ (c a b = -1 ↔ c' a b = -1))
    (root other : RBNode T) (x : T) :
    Upsert c root x = Upsert c' root x
      ∧ RBGo.Delete c root x = RBGo.Delete c' root x
      ∧ RBGo.Union c root other = RBGo.Union c' root other
      ∧ RBGo.Subtract c root other = RBGo.Subtract c' root other
      ∧ RBGo.Intersection c root other = RBGo.Intersection c' root other := by
  cases root <;>
    refine ⟨?_, ?_, ?_, ?_, ?_⟩ <;>
    simp only [Upsert, RBGo.Delete, RBGo.Union, RBGo.Subtract, RBGo.Intersection,
      upsert_congr c c' h, subtract_congr c c' h, intersection_congr c c' h]

/-- Witness for C7's amended theorem: the comparator reporting "greater"
as `7` satisfies the classification hypothesis against the example
program's `-1/0/+1` comparator, and the theorem applies at the one-node
tree {1} with item 2. -/
theorem comparatorClassificationCongruenceWitness :
    (∀ a b : Int, (compareGreaterSeven a b = 0 ↔ RBGo.compare a b = 0)
        ∧ (compareGreaterSeven a b = -1 ↔ RBGo.compare a b = -1))
      ∧ Upsert compareGreaterSeven (.node (1 : Int) black .nil .nil) 2
          = Upsert RBGo.compare (.node (1 : Int) black .nil .nil) 2 := by
  have hcc : ∀ a b : Int, (compareGreaterSeven a b = 0 ↔ RBGo.compare a b = 0)
      ∧ (compareGreaterSeven a b = -1 ↔ RBGo.compare a b = -1) := by
    intro a b
    simp only [compareGreaterSeven, RBGo.compare]
    split_ifs <;> exact ⟨by decide, by decide⟩
  exact ⟨hcc,
    (comparatorClassificationCongruence compareGreaterSeven RBGo.compare hcc
      (.node (1 : Int) black .nil .nil) .nil 2).1⟩

/-- Elements an iterator will still produce from one stacked (or current)
node: the node's item followed by its right subtree in order (its left
subtree is already consumed once the node sits in an iterator state). -/
def nodeSeq : RBNode T → List T
  | .nil => []
  | .node i _ _ r => i :: inorder r

/-- Elements an iterator will still produce from its stack, top first. -/
def stackSeq : List (RBNode T) → List T
  | [] => []
  | n :: rest => nodeSeq n ++ stackSeq rest

/-- The full sequence an iterator state will still produce. -/
def remaining (it : nodeIterator T) : List T :=
  nodeSeq it.current ++ stackSeq it.unprocStack

theorem stackSeq_pushLeftSpine (t : RBNode T) :
    ∀ s, stackSeq (pushLeftSpine s t) = inorder t ++ stackSeq s := by
  induction t with
  | nil => intro s; simp [pushLeftSpine, inorder]
  | node i c l r ihl ihr =>
    intro s
    simp only [pushLeftSpine, ihl, stackSeq, nodeSeq, inorder, List.append_assoc,
      List.cons_append]

theorem stackWeight_pushLeftSpine (t : RBNode T) :
    ∀ s, stackWeight (pushLeftSpine s t) = size t + stackWeight s := by
  induction t with
  | nil => intro s; simp [pushLeftSpine, size]
  | node i c l r ihl ihr =>
    intro s
    simp only [pushLeftSpine, ihl, stackWeight, weight, size]
    omega

theorem pushLeftSpine_ne_nil (t : RBNode T) :
    ∀ s, (∀ m ∈ s, m ≠ RBNode.nil) → ∀ m ∈ pushLeftSpine s t, m ≠ RBNode.nil := by
  induction t with
  | nil => intro s hs; simpa [pushLeftSpine] using hs
  | node i c l r ihl ihr =>
    intro s hs
    refine ihl _ ?_
    intro m hm
    rcases List.mem_cons.mp hm with h1 | h2
    · subst h1; simp
    · exact hs m h2

theorem iterGo_eq_remaining :
    ∀ (fuel : Nat) (it : nodeIterator T),
      (∀ m ∈ it.unprocStack, m ≠ RBNode.nil) →
      (it.current = RBNode.nil → it.unprocStack = []) →
      iterFuel it ≤ fuel → iterGo fuel it = remaining it := by
  intro fuel
  induction fuel with
  | zero =>
    intro it hstack hcur hfuel
    match hc : it.current with
    | .nil =>
      have : it.unprocStack = [] := hcur hc
      simp [iterGo, remaining, hc, this, nodeSeq, stackSeq]
    | .node i c l r =>
      exfalso
      have : iterFuel it ≥ 1 := by
        simp only [iterFuel, weight, hc]
        omega
      omega
  | succ fuel ih =>
    intro it hstack hcur hfuel
    match hc : it.current with
    | .nil =>
      have : it.unprocStack = [] := hcur hc
      simp [iterGo, remaining, hc, this, nodeSeq, stackSeq]
    | .node i c l r =>
      have hnext : RBGo.Next it =
          match pushLeftSpine it.unprocStack r with
          | [] => ⟨[], .nil⟩
          | top :: rest => ⟨rest, top⟩ := by
        simp [RBGo.Next, hc]
      have hseq := stackSeq_pushLeftSpine r it.unprocStack
      have hw := stackWeight_pushLeftSpine r it.unprocStack
      have hfit : iterFuel it = size r + 1 + stackWeight it.unprocStack := by
        simp [iterFuel, weight, hc]
      match hp : pushLeftSpine it.unprocStack r with
      | [] =>
        rw [hp] at hnext hseq hw
        have hempty : inorder r ++ stackSeq it.unprocStack = [] := by
          simpa [stackSeq] using hseq.symm
        have : iterGo fuel (RBGo.Next it) = [] := by
          rw [hnext]
          cases fuel <;> simp [iterGo]
        simp only [iterGo, hc, this, remaining, nodeSeq, List.cons_append, hempty]
      | top :: rest =>
        rw [hp] at hnext hseq hw
        have htopne : top ≠ RBNode.nil :=
          pushLeftSpine_ne_nil r it.unprocStack hstack top (hp ▸ List.mem_cons_self top rest)
        have hrest : ∀ m ∈ rest, m ≠ RBNode.nil := fun m hm =>
          pushLeftSpine_ne_nil r it.unprocStack hstack m (hp ▸ List.mem_cons_of_mem top hm)
        have hnext_stack : (RBGo.Next it).unprocStack = rest := by rw [hnext]
        have hnext_cur : (RBGo.Next it).current = top := by rw [hnext]
        have hfnext : iterFuel (RBGo.Next it) ≤ fuel := by
          have : iterFuel (RBGo.Next it) = weight top + stackWeight rest := by
            rw [hnext]; simp [iterFuel]
          have hsw : stackWeight (top :: rest) = weight top + stackWeight rest := by
            simp [stackWeight]
          omega
        have ihx := ih (RBGo.Next it)
          (by rw [hnext_stack]; exact hrest)
          (by intro hcn; rw [hnext_cur] at hcn; exact absurd hcn htopne)
          hfnext
        have hremnext : remaining (RBGo.Next it) = inorder r ++ stackSeq it.unprocStack := by
          simp only [remaining, hnext_stack, hnext_cur]
          simpa [stackSeq] using hseq
        simp only [iterGo, hc]
        rw [ihx, hremnext]
        simp [remaining, nodeSeq, hc]

theorem remaining_descendLeft (n : RBNode T) :
    ∀ s, remaining (descendLeft s n) = inorder n ++ stackSeq s := by
  induction n with
  | nil => intro s; simp [descendLeft, remaining, nodeSeq, inorder]
  | node i c l r ihl ihr =>
    intro s
    cases l with
    | nil => simp [descendLeft, remaining, nodeSeq, inorder]
    | node li lc ll lr =>
      simp only [descendLeft, ihl, stackSeq, nodeSeq, inorder, List.append_assoc,
        List.cons_append]

theorem iterFuel_descendLeft (n : RBNode T) :
    ∀ s, iterFuel (descendLeft s n) = size n + stackWeight s := by
  induction n with
  | nil => intro s; simp [descendLeft, iterFuel, weight, size]
  | node i c l r ihl ihr =>
    intro s
    cases l with
    | nil => simp [descendLeft, iterFuel, weight, stackWeight, size]
    | node li lc ll lr =>
      rw [descendLeft, ihl]
      simp [stackWeight, weight, size]
      omega

theorem descendLeft_stack_ne_nil (n : RBNode T) :
    ∀ s, (∀ m ∈ s, m ≠ RBNode.nil) →
      ∀ m ∈ (descendLeft s n).unprocStack, m ≠ RBNode.nil := by
  induction n with
  | nil => intro s hs; simpa [descendLeft] using hs
  | node i c l r ihl ihr =>
    intro s hs
    cases l with
    | nil => simpa [descendLeft] using hs
    | node li lc ll lr =>
      rw [descendLeft]
      refine ihl _ ?_
      intro m hm
      rcases List.mem_cons.mp hm with h1 | h2
      · subst h1; simp
      · exact hs m h2

theorem descendLeft_current_ne_nil (n : RBNode T) (h : n ≠ RBNode.nil) :
    ∀ s, (descendLeft s n).current ≠ RBNode.nil := by
  induction n with
  | nil => exact absurd rfl h
  | node i c l r ihl ihr =>
    intro s
    cases l with
    | nil => simp [descendLeft]
    | node li lc ll lr => rw [descendLeft]; exact ihl (by simp) _

/-- The stack-based iterator reproduces the in-order traversal of any
tree, element for element. -/
theorem iterToList_Iterator (root : RBNode T) :
    iterToList (RBGo.Iterator root) = inorder root := by
  cases root with
  | nil => simp [RBGo.Iterator, iterToList, iterFuel, weight, stackWeight, iterGo, inorder]
  | node i c l r =>
    have hgood := descendLeft_stack_ne_nil (RBNode.node i c l r) []
      (by intro m hm; simp at hm)
    have hcur := descendLeft_current_ne_nil (RBNode.node i c l r)
      (fun hx => RBNode.noConfusion hx) []
    have := iterGo_eq_remaining (iterFuel (descendLeft [] (RBNode.node i c l r)))
      (descendLeft [] (RBNode.node i c l r)) hgood
      (fun hx => absurd hx hcur) (Nat.le_refl _)
    have hIt : RBGo.Iterator (RBNode.node i c l r) = descendLeft [] (RBNode.node i c l r) := rfl
    rw [hIt, iterToList, this, remaining_descendLeft]
    simp [stackSeq]

/-- C6 (amended): for every tree whose in-order sequence is strictly
increasing under the comparator — every tree satisfying the ordering
invariant, e.g. any tree built by Upserts alone — a fresh iterator
yields exactly that in-order sequence (hence exactly the tree's distinct
keys, strictly increasing); on the empty tree `HasElem` is false
immediately. Reachable trees with duplicate keys exist (see the
counterexample), so the ordering hypothesis cannot be dropped. -/
theorem iteratorYieldsSortedInorder (c : T → T → Int) (root : RBNode T)
    (h : strictlyIncreasing c (inorder root) = true) :
    iterToList (RBGo.Iterator root) = inorder root
      ∧ strictlyIncreasing c (iterToList (RBGo.Iterator root)) = true
      ∧ HasElem (RBGo.Iterator (RBNode.nil : RBNode T)) = false :=
  ⟨iterToList_Iterator root, by rw [iterToList_Iterator]; exact h, rfl⟩

/-- Witness for C6's amended theorem at the tree built by upserting
1, 2, 3 with the example comparator. -/
theorem iteratorYieldsSortedInorderWitness :
    strictlyIncreasing RBGo.compare
        (inorder (.node (2 : Int) black (.node 1 black .nil .nil) (.node 3 black .nil .nil)))
        = true
      ∧ iterToList (RBGo.Iterator
            (.node (2 : Int) black (.node 1 black .nil .nil) (.node 3 black .nil .nil)))
          = inorder (.node (2 : Int) black (.node 1 black .nil .nil) (.node 3 black .nil .nil)) :=
  ⟨by decide,
    (iteratorYieldsSortedInorder RBGo.compare
      (.node (2 : Int) black (.node 1 black .nil .nil) (.node 3 black .nil .nil))
      (by decide)).1⟩

/-- C10: an iterator with no current element returns the zero value of
`T` from `Elem` (modelled by `default`) and `Next` leaves it unchanged,
still without a current element. -/
theorem exhaustedIteratorElemZeroNextNoop [Inhabited T] (it : nodeIterator T)
    (h : HasElem it = false) :
    Elem it = default ∧ RBGo.Next it = it ∧ HasElem (RBGo.Next it) = false := by
  obtain ⟨stack, cur⟩ := it
  cases cur with
  | nil => exact ⟨rfl, rfl, rfl⟩
  | node i c l r => exact absurd h (by simp [HasElem])

/-- Witness for C10 at the iterator of the empty `Int` tree. -/
theorem exhaustedIteratorElemZeroNextNoopWitness :
    HasElem (⟨[], .nil⟩ : nodeIterator Int) = false
      ∧ Elem (⟨[], .nil⟩ : nodeIterator Int) = 0
      ∧ RBGo.Next (⟨[], .nil⟩ : nodeIterator Int) = ⟨[], .nil⟩ :=
  ⟨rfl, (exhaustedIteratorElemZeroNextNoop ⟨[], .nil⟩ rfl).1,
    (exhaustedIteratorElemZeroNextNoop (⟨[], .nil⟩ : nodeIterator Int) rfl).2.1⟩

end RBGo
